import Mathlib

/-!
Verification of the `ryuu` float-formatting library against its
natural-language specification.

The development shallowly embeds `src/src/format.rs`: byte buffers become
`List Nat` (each entry an ASCII code), the `MaybeUninit<u8>` cells of the
`Formatted` buffer become `Option Nat` (`none` models an uninitialized byte),
and raw-pointer copies become list operations.  The fallible
`copy_to_bytes` returns its `Option<usize>` result together with the
(possibly updated) caller buffer, so that "no partial write" is expressible.

The shortest-round-trip digit generation core (`raw::format64_spec`, the
power-of-five tables, module `d2s`/`f2s`) is not part of the sources under
verification; where a claim depends on it, the missing part is modelled from
the specification text and the corresponding definitions carry a
`Modelled from the spec:` doc comment.
-/

namespace Ryuu

/-- The length of the buffer used to store the formatted text
(`BUFFER_LEN` in src/src/format.rs, line 9). -/
def BUFFER_LEN : Nat := 32

/-- Layout metadata of a formatted number (`raw::FormattedMeta`).  The module
`raw` is not under the verified sources; the shape of the three variants is
fully determined by the pattern matches of `src/src/format.rs` (lines
137, 252, 294, 382) and by the spec, section 3 (Layout Metadata). -/
inductive FormattedMeta where
  | Decimal (offset_decimal_point : Nat)
  | Exponent (offset_decimal_point : Option Nat) (offset_exponent : Nat)
  | Nonfinite
deriving DecidableEq

/-- The formatted text of a floating point number (`Formatted`,
src/src/format.rs lines 32-42).  A cell of `bytes` is `none` when it models
an uninitialized `MaybeUninit<u8>` byte. -/
structure Formatted where
  bytes : List (Option Nat)
  meta : FormattedMeta
  initialized : Nat
deriving DecidableEq

/-- Reading `n` raw bytes from the start of the buffer
(`ptr::copy_nonoverlapping(self.bytes.as_ptr(), .., n)` /
`slice::from_raw_parts(self.bytes.as_ptr(), n)`).  Reading an uninitialized
cell yields the unspecified value `0`; under the library invariant this
never happens. -/
def readBytes (f : Formatted) (n : Nat) : List Nat :=
  (f.bytes.take n).map (fun o => o.getD 0)

/-- `Formatted::as_bytes` (src/src/format.rs lines 102-108): the first
`initialized` bytes of the buffer. -/
def Formatted.as_bytes (f : Formatted) : List Nat :=
  readBytes f f.initialized

/-- `Formatted::as_str_fixed_dp::<DECIMAL_PLACES>` (src/src/format.rs lines
135-151), with the returned `&str` modelled as its byte sequence. -/
def Formatted.as_str_fixed_dp (N : Nat) (f : Formatted) : List Nat :=
  match f.meta with
  | .Decimal offset_decimal_point =>
    if offset_decimal_point + N < f.initialized then
      readBytes f (offset_decimal_point + N + 1)
    else
      f.as_bytes
  | _ => f.as_bytes

/-- Writing a byte sequence `xs` at the start of a caller buffer, leaving the
bytes past `xs.length` untouched (the semantics of writing through the first
component of `split_at_mut`). -/
def writeFront (buf xs : List Nat) : List Nat :=
  xs ++ buf.drop xs.length

/-- `Formatted::copy_to_bytes::<DECIMAL_PLACES>` (src/src/format.rs lines
250-394).  The result pairs the returned `Option<usize>` with the caller
buffer after the call; the `None` paths return the buffer unchanged, exactly
as the source returns before any write. -/
def Formatted.copy_to_bytes (N : Nat) (f : Formatted) (buf : List Nat) :
    Option Nat × List Nat :=
  match f.meta with
  | .Decimal offset_decimal_point =>
    if N = 0 then
      if buf.length < offset_decimal_point then (none, buf)
      else
        (some offset_decimal_point, writeFront buf (readBytes f offset_decimal_point))
    else
      -- `let target_length = offset_decimal_point + DECIMAL_PLACES + 1`
      let target_length := offset_decimal_point + N + 1
      if buf.length < target_length then (none, buf)
      else if target_length ≤ f.initialized then
        (some target_length, writeFront buf (readBytes f target_length))
      else
        (some target_length,
          writeFront buf
            (readBytes f f.initialized ++
              List.replicate (target_length - f.initialized) 48))
  | .Exponent offset_decimal_point offset_exponent =>
    let target_decimal_part := if N = 0 then 0 else N + 1
    let actual_integer_part :=
      match offset_decimal_point with
      | some d => d
      | none => offset_exponent
    let actual_decimal_part :=
      match offset_decimal_point with
      | some d => offset_exponent - d
      | none => 0
    let target_length := f.initialized - actual_decimal_part + target_decimal_part
    if buf.length < target_length then (none, buf)
    else
      let bs := f.as_bytes
      let bytes_integer_part := bs.take actual_integer_part
      let bytes_decimal_part := (bs.drop actual_integer_part).take actual_decimal_part
      let bytes_exponent_part := bs.drop (actual_integer_part + actual_decimal_part)
      let buf_decimal_out : List Nat :=
        if target_decimal_part = 0 then []
        else if actual_decimal_part ≤ target_decimal_part then
          -- `checked_sub` returned `Some(remaining)`
          if actual_decimal_part = 0 then
            46 :: List.replicate (target_decimal_part - 1) 48
          else
            bytes_decimal_part ++
              List.replicate (target_decimal_part - actual_decimal_part) 48
        else
          -- `checked_sub` returned `None`
          bytes_decimal_part.take target_decimal_part
      (some target_length,
        writeFront buf (bytes_integer_part ++ buf_decimal_out ++ bytes_exponent_part))
  | .Nonfinite =>
    if buf.length < f.initialized then (none, buf)
    else (some f.initialized, writeFront buf f.as_bytes)

/-- The literal `"NaN"` (src/src/format.rs line 548) as ASCII bytes. -/
def NAN : List Nat := [78, 97, 78]

/-- The literal `"inf"` (src/src/format.rs line 549) as ASCII bytes. -/
def INFINITY : List Nat := [105, 110, 102]

/-- The literal `"-inf"` (src/src/format.rs line 550) as ASCII bytes. -/
def NEG_INFINITY : List Nat := [45, 105, 110, 102]

/-- `is_nonfinite_f64` (src/src/format.rs lines 560-564).  The input is the
`f64` bit pattern (`d.to_bits()`); the source mask test
`bits & 0x7ff0000000000000 == 0x7ff0000000000000` asks whether the 11
exponent bits (bits 52-62) are all ones, i.e. the field equals 2047. -/
def is_nonfinite_f64 (bits : Nat) : Bool :=
  bits / 2 ^ 52 % 2 ^ 11 = 2047

/-- `is_nonfinite_f32` (src/src/format.rs lines 553-557): the 8 exponent bits
(bits 23-30) are all ones, i.e. the field equals 255. -/
def is_nonfinite_f32 (bits : Nat) : Bool :=
  bits / 2 ^ 23 % 2 ^ 8 = 255

/-- `format_nonfinite_f64` (src/src/format.rs lines 568-579).
`bits & MANTISSA_MASK` is `bits % 2^52`; `bits & SIGN_MASK != 0` is bit 63. -/
def format_nonfinite_f64 (bits : Nat) : List Nat :=
  if bits % 2 ^ 52 ≠ 0 then NAN
  else if bits / 2 ^ 63 % 2 = 1 then NEG_INFINITY
  else INFINITY

/-- `format_nonfinite_f32` (src/src/format.rs lines 583-594). -/
def format_nonfinite_f32 (bits : Nat) : List Nat :=
  if bits % 2 ^ 23 ≠ 0 then NAN
  else if bits / 2 ^ 31 % 2 = 1 then NEG_INFINITY
  else INFINITY

/-- The nonfinite arm of `Formatter::format_f64`/`format_f32`
(src/src/format.rs lines 423-437 and 449-463): the literal is copied into a
fresh buffer whose remaining cells stay uninitialized, the metadata is
`Nonfinite` and `initialized` is the literal length. -/
def mkNonfinite (lit : List Nat) : Formatted :=
  { bytes := lit.map some ++ List.replicate (BUFFER_LEN - lit.length) none
    meta := .Nonfinite
    initialized := lit.length }

/-- `Formatter::format_f64` (src/src/format.rs lines 419-441).  The finite
branch calls `raw::format64_spec`, which is not under the verified sources;
it is kept abstract as the parameter `format_finite`. -/
def format_f64 (format_finite : Nat → Formatted) (bits : Nat) : Formatted :=
  if is_nonfinite_f64 bits then mkNonfinite (format_nonfinite_f64 bits)
  else format_finite bits

/-- `Formatter::format_f32` (src/src/format.rs lines 445-467), with the
finite branch (`raw::format32_spec`, not under the verified sources) kept
abstract as the parameter `format_finite`. -/
def format_f32 (format_finite : Nat → Formatted) (bits : Nat) : Formatted :=
  if is_nonfinite_f32 bits then mkNonfinite (format_nonfinite_f32 bits)
  else format_finite bits

/-- An initialized ASCII byte cell. -/
def isAscii (b : Option Nat) : Bool :=
  match b with
  | some v => v < 128
  | none => false

/-- Structural well-formedness of the layout metadata with respect to the
written buffer (spec, section 3: "metadata must exactly describe the byte
layout actually written").  For `Decimal`, the decimal point sits at the
recorded offset, preceded by at least one integer-part byte and followed by
at least one fractional digit; for `Exponent`, the exponent marker sits at
the recorded offset and a recorded decimal point precedes it with at least
one fractional digit in between. -/
def metaOkB (f : Formatted) : Bool :=
  match f.meta with
  | .Decimal offset_decimal_point =>
    1 ≤ offset_decimal_point &&
    offset_decimal_point + 1 < f.initialized &&
    f.bytes.getD offset_decimal_point none == some 46
  | .Exponent offset_decimal_point offset_exponent =>
    (match offset_decimal_point with
     | some d => 1 ≤ d && d + 2 ≤ offset_exponent && f.bytes.getD d none == some 46
     | none => true) &&
    offset_exponent < f.initialized &&
    f.bytes.getD offset_exponent none == some 101
  | .Nonfinite =>
    f.as_bytes == NAN || f.as_bytes == INFINITY || f.as_bytes == NEG_INFINITY

/-- The invariant every `Formatted` constructed by the library satisfies
(spec, sections 3 and 9): full 32-byte backing buffer, `initialized` within
capacity, the initialized prefix made of initialized ASCII bytes, and
metadata describing the layout. -/
def InvB (f : Formatted) : Bool :=
  f.bytes.length == BUFFER_LEN &&
  f.initialized ≤ BUFFER_LEN &&
  (f.bytes.take f.initialized).all isAscii &&
  metaOkB f

/-- The exact number of output bytes `copy_to_bytes::<N>` needs, computed
branch by branch exactly as the source computes its target length before
checking the caller buffer. -/
def reqLen (N : Nat) (f : Formatted) : Nat :=
  match f.meta with
  | .Decimal offset_decimal_point =>
    if N = 0 then offset_decimal_point else offset_decimal_point + N + 1
  | .Exponent offset_decimal_point offset_exponent =>
    let actual_decimal_part :=
      match offset_decimal_point with
      | some d => offset_exponent - d
      | none => 0
    f.initialized - actual_decimal_part + (if N = 0 then 0 else N + 1)
  | .Nonfinite => f.initialized

/-- Truncating or right-padding (with ASCII `0`) a digit sequence to exactly
`N` digits. -/
def padTrunc (N : Nat) (l : List Nat) : List Nat :=
  l.take N ++ List.replicate (N - l.length) 48

/-- The exact byte sequence `copy_to_bytes::<N>` writes at the start of the
caller buffer when the buffer is large enough, branch by branch as in the
source. -/
def payload (N : Nat) (f : Formatted) : List Nat :=
  match f.meta with
  | .Decimal offset_decimal_point =>
    if N = 0 then readBytes f offset_decimal_point
    else if offset_decimal_point + N + 1 ≤ f.initialized then
      readBytes f (offset_decimal_point + N + 1)
    else
      readBytes f f.initialized ++
        List.replicate (offset_decimal_point + N + 1 - f.initialized) 48
  | .Exponent offset_decimal_point offset_exponent =>
    let target_decimal_part := if N = 0 then 0 else N + 1
    let actual_integer_part :=
      match offset_decimal_point with
      | some d => d
      | none => offset_exponent
    let actual_decimal_part :=
      match offset_decimal_point with
      | some d => offset_exponent - d
      | none => 0
    let bs := f.as_bytes
    let bytes_decimal_part := (bs.drop actual_integer_part).take actual_decimal_part
    bs.take actual_integer_part ++
      (if target_decimal_part = 0 then []
       else if actual_decimal_part ≤ target_decimal_part then
         if actual_decimal_part = 0 then
           46 :: List.replicate (target_decimal_part - 1) 48
         else
           bytes_decimal_part ++
             List.replicate (target_decimal_part - actual_decimal_part) 48
       else bytes_decimal_part.take target_decimal_part) ++
      bs.drop (actual_integer_part + actual_decimal_part)
  | .Nonfinite => f.as_bytes

/-- Modelled from the spec: the additional shape constraints (beyond `InvB`)
that section 4.4 guarantees for scientific-notation output of the digit
renderer (`raw::format64_spec` / `raw::format32_spec`, not under the
verified sources): an optional sign plus a single leading digit (integer
part at most 2 bytes), and an exponent tail of the marker, an optional
minus sign and at most three exponent digits (at most 5 bytes). -/
def SpecFormattedB (f : Formatted) : Bool :=
  InvB f &&
  match f.meta with
  | .Exponent offset_decimal_point offset_exponent =>
    (match offset_decimal_point with
     | some d => d ≤ 2
     | none => offset_exponent ≤ 2) &&
    f.initialized ≤ offset_exponent + 5
  | _ => true

/-- Modelled from the spec: the set of `Formatted` values the four public
formatters can return.  The nonfinite construction is taken verbatim from
`format_f64`/`format_f32` in src/src/format.rs; a finite input is rendered
by `raw::format64_spec`/`raw::format32_spec`, which are not under the
verified sources, and whose output is characterized by the layout
description of spec sections 3 and 4.4 (`SpecFormattedB`). -/
def ProducedBy (f : Formatted) : Prop :=
  (∃ bits, bits < 2 ^ 64 ∧ is_nonfinite_f64 bits = true ∧
    f = mkNonfinite (format_nonfinite_f64 bits)) ∨
  (∃ bits, bits < 2 ^ 32 ∧ is_nonfinite_f32 bits = true ∧
    f = mkNonfinite (format_nonfinite_f32 bits)) ∨
  SpecFormattedB f = true

/-- Modelled from the spec (section 8, scenario 1): the `Formatted` value for
3.14159 (64-bit), text "3.14159" with the decimal point at offset 1; used as
a concrete input for the theorems below. -/
def sample : Formatted :=
  { bytes := [51, 46, 49, 52, 49, 53, 57].map some ++ List.replicate 25 none
    meta := .Decimal 1
    initialized := 7 }

/-- Modelled from the spec (section 8, scenario 3): the `Formatted` value for
3e20 (64-bit), text "3e20" in scientific form with no fractional part and the
exponent marker at offset 1. -/
def f3e20 : Formatted :=
  { bytes := [51, 101, 50, 48].map some ++ List.replicate 28 none
    meta := .Exponent none 1
    initialized := 4 }

/-!
Model for the shortest-round-trip claims (C1, C2).

Modelled from the spec: the shortest-digit generator (`raw::format64_spec` /
`raw::format32_spec`, modules `d2s`/`f2s` and the power-of-five tables) is
code of this repository that is not under src/.  The spec defines its
contract extensionally (sections 1, 4.2, 8 and the glossary): produce, for a
finite input, the decimal digit sequence and decimal exponent with the
fewest significant digits among all that re-parse (round-to-nearest-even)
to the input's exact bit pattern.  The model below renders that contract
directly: IEEE-754 finite values of either width are enumerated by a
magnitude index, round-to-nearest-even parsing is the membership of the
decimal value in the half-open/closed rounding interval of a magnitude
(ends at the midpoints to the neighboring representable magnitudes,
included exactly for even mantissas), and the formatter picks, by minimal
digit count, a decimal pair that parses back to the input.
-/

/-- The integer significand of the finite magnitude with biased exponent `e`
and mantissa `m` of a binary format with `W` mantissa bits: the value of the
magnitude is `natval W e m * 2 ^ (1 - BIAS)` (subnormals at `e = 0`, the
implicit leading bit otherwise). -/
def natval (W e m : Nat) : Nat :=
  if e = 0 then m else (2 ^ W + m) * 2 ^ (e - 1)

/-- The significand of the magnitude with index `k = e * 2^W + m`: the index
enumerates the nonnegative finite magnitudes of the format in increasing
order. -/
def nvIdx (W k : Nat) : Nat :=
  natval W (k / 2 ^ W) (k % 2 ^ W)

/-- The gap (in units of `2 ^ (1 - BIAS)`) between the magnitude with index
`k` and its successor. -/
def ulpIdx (W k : Nat) : Nat :=
  if k / 2 ^ W = 0 then 1 else 2 ^ (k / 2 ^ W - 1)

/-- The scale `2 ^ (1 - BIAS)` common to all significands of the format. -/
def scaleQ (B : Nat) : ℚ :=
  2 ^ ((1 : ℤ) - B)

/-- The exact rational value of the magnitude with index `k`. -/
def magval (W B k : Nat) : ℚ :=
  (nvIdx W k : ℚ) * scaleQ B

/-- The lower end of the rounding interval of the magnitude with index `k`:
the midpoint to the previous representable magnitude (or the magnitude 0
itself for `k = 0`). -/
def lowBound (W B k : Nat) : ℚ :=
  ((nvIdx W (k - 1) + nvIdx W k : Nat) : ℚ) * scaleQ B / 2

/-- The upper end of the rounding interval of the magnitude with index `k`:
the midpoint to the next representable magnitude (for the largest finite
magnitude this is the IEEE overflow threshold). -/
def highBound (W B k : Nat) : ℚ :=
  ((nvIdx W k + nvIdx W (k + 1) : Nat) : ℚ) * scaleQ B / 2

/-- Modelled from the spec (sections 1 and 8): round-to-nearest-even parsing
of a nonnegative decimal value `v`, as a relation: `v` rounds to the
magnitude with index `k` exactly when `v` lies in the rounding interval of
`k`, whose two midpoint ends are included exactly when the mantissa is even
(for `W ≥ 1` the index `k` and the mantissa `k % 2^W` have the same
parity, so the test uses `k % 2`). -/
def roundsToB (W B : Nat) (v : ℚ) (k : Nat) : Bool :=
  if k % 2 = 0 then
    decide (lowBound W B k ≤ v) && decide (v ≤ highBound W B k)
  else
    decide (lowBound W B k < v) && decide (v < highBound W B k)

/-- The value denoted by a decimal digit string: significand `m` (the digit
string read as a natural number) times `10 ^ e`. -/
def decval (m : Nat) (e : ℤ) : ℚ :=
  (m : ℚ) * 10 ^ e

/-- The index of the largest finite magnitude of the format. -/
def maxIdx (W EMAX : Nat) : Nat :=
  (EMAX + 1) * 2 ^ W - 1

/-- The number of significant digits of a decimal significand. -/
def digitCount (n : Nat) : Nat :=
  (Nat.digits 10 n).length

/-- The decimal exponents searched for digit count `d`: the range
`[-(1100 + d), 400]`, wide enough to contain the decimal exponent of every
decimal that rounds to a finite nonzero magnitude of either format
(established by the theorems below). -/
def erange (d : Nat) : List ℤ :=
  (List.range (1501 + d)).map (fun i : Nat => (i : ℤ) - (1100 + (d : ℤ)))

/-- All decimal pairs with at most `d` significant digits and searched
exponent. -/
def candidates (d : Nat) : List (Nat × ℤ) :=
  (List.range (10 ^ d)).flatMap (fun m => (erange d).map (fun e => (m, e)))

/-- The first decimal pair with at most `d` digits that parses back to the
magnitude with index `k`, if any. -/
def foundPair (W B k d : Nat) : Option (Nat × ℤ) :=
  (candidates d).find? (fun p => roundsToB W B (decval p.1 p.2) k)

/-- A finite IEEE-754 value of a format with `W` mantissa bits and largest
finite biased exponent `EMAX`: sign, biased exponent, mantissa (the bit
pattern `(sign, ex, man)`). -/
structure FiniteFloat (W EMAX : Nat) where
  sign : Bool
  ex : Nat
  man : Nat
  ex_le : ex ≤ EMAX
  man_lt : man < 2 ^ W

/-- The magnitude index of a finite float. -/
def FiniteFloat.idx {W EMAX : Nat} (x : FiniteFloat W EMAX) : Nat :=
  x.ex * 2 ^ W + x.man

/-- A digit count at which the search is guaranteed to succeed (the exact
decimal expansion of the magnitude has this many digits or fewer). -/
def DBound (W B k : Nat) : Nat :=
  B + nvIdx W k * 5 ^ (B - 1)

/-- Modelled from the spec (section 4.2): the digit-count and decimal pair
the shortest-round-trip generator produces for a finite float: the least
digit count `d` at which some decimal with `d` digits parses back to the
input's magnitude, together with such a pair.  (The guard makes the
definition total; the theorems below show the guard holds.) -/
def fmtData (W EMAX B : Nat) (x : FiniteFloat W EMAX) : Nat × Nat × ℤ :=
  if h : (foundPair W B x.idx (DBound W B x.idx)).isSome = true then
    have hex : ∃ d, (foundPair W B x.idx d).isSome = true := ⟨DBound W B x.idx, h⟩
    (Nat.find hex, (foundPair W B x.idx (Nat.find hex)).get (Nat.find_spec hex))
  else (0, 0, 0)

/-- The number of significant digits of the produced decimal string. -/
def sigLen (W EMAX B : Nat) (x : FiniteFloat W EMAX) : Nat :=
  (fmtData W EMAX B x).1

/-- The produced decimal pair (significand, decimal exponent). -/
def fmtPair (W EMAX B : Nat) (x : FiniteFloat W EMAX) : Nat × ℤ :=
  (fmtData W EMAX B x).2

/-- Modelled from the spec (sections 4.2 and 6): the value
`formatFinite{64,32}` renders for a finite input, as a signed decimal
(sign, digit significand, decimal exponent); the rendered text denotes
exactly this signed decimal in both the plain and the scientific layout. -/
def formatFiniteDec (W EMAX B : Nat) (x : FiniteFloat W EMAX) : Bool × Nat × ℤ :=
  (x.sign, fmtPair W EMAX B x)

/-- The f64 value 1.0 (bit pattern sign 0, biased exponent 1023, mantissa 0),
used as a concrete input for the round-trip theorems. -/
def one64 : FiniteFloat 52 2046 :=
  { sign := false, ex := 1023, man := 0, ex_le := by norm_num, man_lt := by positivity }

/-! Helper lemmas about the embedded buffer operations. -/

theorem readBytes_length (f : Formatted) (n : Nat) (h : n ≤ f.bytes.length) :
    (readBytes f n).length = n := by
  simp [readBytes]
  omega

theorem as_bytes_length (f : Formatted) (h32 : f.bytes.length = BUFFER_LEN)
    (hi : f.initialized ≤ BUFFER_LEN) : f.as_bytes.length = f.initialized := by
  simp [Formatted.as_bytes, readBytes]
  omega

theorem readBytes_eq_take (f : Formatted) (n : Nat) (h : n ≤ f.initialized) :
    readBytes f n = (f.as_bytes).take n := by
  unfold Formatted.as_bytes readBytes
  rw [← List.map_take, List.take_take, Nat.min_eq_left h]

theorem writeFront_length {buf xs : List Nat} (h : xs.length ≤ buf.length) :
    (writeFront buf xs).length = buf.length := by
  simp [writeFront]
  omega

theorem writeFront_take (buf xs : List Nat) : (writeFront buf xs).take xs.length = xs :=
  List.take_left ..

theorem writeFront_drop (buf xs : List Nat) :
    (writeFront buf xs).drop xs.length = buf.drop xs.length :=
  List.drop_left ..

theorem InvB_parts {f : Formatted} (h : InvB f = true) :
    f.bytes.length = BUFFER_LEN ∧ f.initialized ≤ BUFFER_LEN ∧
    (f.bytes.take f.initialized).all isAscii = true ∧ metaOkB f = true := by
  simp only [InvB, Bool.and_eq_true, beq_iff_eq, decide_eq_true_eq] at h
  exact ⟨h.1.1.1, h.1.1.2, h.1.2, h.2⟩

theorem metaOk_decimal {f : Formatted} {p : Nat} (h : metaOkB f = true)
    (hm : f.meta = .Decimal p) :
    1 ≤ p ∧ p + 1 < f.initialized ∧ f.bytes.getD p none = some 46 := by
  unfold metaOkB at h
  rw [hm] at h
  simp only [Bool.and_eq_true, beq_iff_eq, decide_eq_true_eq] at h
  exact ⟨h.1.1, h.1.2, h.2⟩

theorem metaOk_exponent {f : Formatted} {dp : Option Nat} {ex : Nat}
    (h : metaOkB f = true) (hm : f.meta = .Exponent dp ex) :
    (∀ d, dp = some d → 1 ≤ d ∧ d + 2 ≤ ex ∧ f.bytes.getD d none = some 46) ∧
    ex < f.initialized ∧ f.bytes.getD ex none = some 101 := by
  unfold metaOkB at h
  rw [hm] at h
  cases dp with
  | none =>
    simp only [Bool.and_eq_true, beq_iff_eq, decide_eq_true_eq] at h
    refine And.intro (fun d hd => by cases hd) (And.intro ?_ ?_) <;> tauto
  | some d =>
    simp only [Bool.and_eq_true, beq_iff_eq, decide_eq_true_eq] at h
    refine And.intro (fun d' hd' => by cases hd'; tauto) (And.intro ?_ ?_) <;> tauto

theorem copy_eq (N : Nat) (f : Formatted) (buf : List Nat) :
    f.copy_to_bytes N buf =
      if buf.length < reqLen N f then (none, buf)
      else (some (reqLen N f), writeFront buf (payload N f)) := by
  cases hm : f.meta with
  | Decimal p =>
    simp only [Formatted.copy_to_bytes, reqLen, payload, hm]
    split_ifs <;> rfl
  | Exponent dp ex =>
    simp only [Formatted.copy_to_bytes, reqLen, payload, hm]
  | Nonfinite =>
    simp only [Formatted.copy_to_bytes, reqLen, payload, hm]

theorem payload_length (N : Nat) (f : Formatted) (h : InvB f = true) :
    (payload N f).length = reqLen N f := by
  obtain ⟨h32, hinit, _, hmeta⟩ := InvB_parts h
  have hA : f.as_bytes.length = f.initialized := as_bytes_length f h32 hinit
  cases hm : f.meta with
  | Decimal p =>
    obtain ⟨hp1, hplt, _⟩ := metaOk_decimal hmeta hm
    simp only [payload, reqLen, hm, readBytes]
    by_cases hN : N = 0
    · simp [hN]
      omega
    · simp [hN]
      split <;> simp <;> omega
  | Exponent dp ex =>
    obtain ⟨hdp, hex, _⟩ := metaOk_exponent hmeta hm
    cases dp with
    | none =>
      simp only [payload, reqLen, hm]
      by_cases hN : N = 0 <;>
        simp [hN, List.length_take, List.length_drop, hA] <;> omega
    | some d =>
      obtain ⟨hd1, hd2, _⟩ := hdp d rfl
      simp only [payload, reqLen, hm]
      split_ifs <;>
        first
        | contradiction
        | (simp only [List.length_append, List.length_take, List.length_drop,
            List.length_replicate, List.length_cons, List.length_nil, hA]
           omega)
  | Nonfinite =>
    simp only [payload, reqLen, hm]
    exact hA

theorem as_bytes_getElem? (f : Formatted) (i : Nat) (hi : i < f.initialized)
    (hb : i < f.bytes.length) {v : Nat} (hv : f.bytes.getD i none = some v) :
    (f.as_bytes)[i]? = some v := by
  have hq : f.bytes[i]? = some (some v) := by
    rw [List.getD_eq_getElem?_getD] at hv
    cases hbq : f.bytes[i]? with
    | none => rw [hbq] at hv; simp at hv
    | some o => rw [hbq] at hv; simp at hv; rw [hv]
  unfold Formatted.as_bytes readBytes
  rw [List.getElem?_map, List.getElem?_take, if_pos hi, hq]
  rfl

theorem take_split_at (A : List Nat) (i n : Nat) {v : Nat} (h : A[i]? = some v) :
    A.take (i + 1 + n) = A.take i ++ v :: (A.drop (i + 1)).take n := by
  rw [List.take_add, List.take_succ, h]
  simp

theorem split_at_elem (A : List Nat) (i : Nat) {v : Nat} (h : A[i]? = some v) :
    A = A.take i ++ v :: A.drop (i + 1) := by
  conv_lhs => rw [← List.take_append_drop (i + 1) A]
  rw [List.take_succ, h]
  simp

theorem payload_decimal_shape (f : Formatted) (p N : Nat) (h : InvB f = true)
    (hm : f.meta = .Decimal p) (hN : N ≠ 0) :
    payload N f = (f.as_bytes).take p ++ 46 :: padTrunc N ((f.as_bytes).drop (p + 1)) := by
  obtain ⟨h32, hinit, _, hmeta⟩ := InvB_parts h
  obtain ⟨hp1, hplt, hdot⟩ := metaOk_decimal hmeta hm
  have hA : f.as_bytes.length = f.initialized := as_bytes_length f h32 hinit
  have hpe : (f.as_bytes)[p]? = some 46 :=
    as_bytes_getElem? f p (by omega) (by omega) hdot
  have hfl : ((f.as_bytes).drop (p + 1)).length = f.initialized - (p + 1) := by
    rw [List.length_drop, hA]
  unfold payload
  rw [hm]
  simp only [if_neg hN]
  by_cases hcase : p + N + 1 ≤ f.initialized
  · rw [if_pos hcase, readBytes_eq_take f _ hcase,
      show p + N + 1 = p + 1 + N by omega, take_split_at _ p N hpe]
    unfold padTrunc
    rw [hfl, show N - (f.initialized - (p + 1)) = 0 by omega]
    simp
  · rw [if_neg hcase, show readBytes f f.initialized = f.as_bytes from rfl]
    conv_lhs => rw [split_at_elem (f.as_bytes) p hpe]
    unfold padTrunc
    rw [List.take_of_length_le (by omega : ((f.as_bytes).drop (p + 1)).length ≤ N),
      hfl, show p + N + 1 - f.initialized = N - (f.initialized - (p + 1)) by omega]
    simp

/-- C4: for every well-formed `Formatted` value and every decimal-place count
`N`: with `reqLen N f` the exact byte count of the output of
`copy_to_bytes::<N>`, a caller buffer shorter than `reqLen N f` (in
particular of length `reqLen N f - 1`) makes the call return `none` with the
buffer completely untouched, and a buffer of length at least `reqLen N f`
makes it return `some (reqLen N f)` with exactly the first `reqLen N f`
bytes of the buffer rewritten (to the exact output `payload N f`) and all
later bytes untouched. -/
theorem claim_C4 (f : Formatted) (N : Nat) (buf : List Nat) (h : InvB f = true) :
    (buf.length < reqLen N f → f.copy_to_bytes N buf = (none, buf)) ∧
    (reqLen N f ≤ buf.length →
      (f.copy_to_bytes N buf).1 = some (reqLen N f) ∧
      (f.copy_to_bytes N buf).2.length = buf.length ∧
      (f.copy_to_bytes N buf).2.take (reqLen N f) = payload N f ∧
      (f.copy_to_bytes N buf).2.drop (reqLen N f) = buf.drop (reqLen N f)) := by
  constructor
  · intro hlt
    rw [copy_eq, if_pos hlt]
  · intro hle
    rw [copy_eq, if_neg (Nat.not_lt.2 hle)]
    have hpl : (payload N f).length = reqLen N f := payload_length N f h
    refine ⟨rfl, writeFront_length (by rw [hpl]; exact hle), ?_, ?_⟩
    · rw [← hpl]
      exact writeFront_take buf _
    · rw [← hpl]
      exact writeFront_drop buf _

/-- C4 witness: for the rendering of 3.14159 (`sample`, text "3.14159",
needing 7 bytes at 5 decimal places), a 3-byte buffer yields `none` with no
write, and a 7-byte buffer succeeds, mirroring `test_buffer_too_small`. -/
theorem claim_C4_witness :
    InvB sample = true ∧
    Formatted.copy_to_bytes 5 sample (List.replicate 3 0) = (none, List.replicate 3 0) ∧
    (Formatted.copy_to_bytes 5 sample (List.replicate 7 0)).1 = some 7 := by
  have h : InvB sample = true := by decide
  refine ⟨h, (claim_C4 sample 5 (List.replicate 3 0) h).1 (by decide), ?_⟩
  have h2 := ((claim_C4 sample 5 (List.replicate 7 0) h).2 (by decide)).1
  have hr : reqLen 5 sample = 7 := by decide
  rw [hr] at h2
  exact h2

/-- C5: for a well-formed `Formatted` with `Decimal` layout and decimal
point at byte offset `p`, given a large enough buffer, `copy_to_bytes::<0>`
writes exactly the first `p` bytes (the sign and integer digits, without the
decimal point) returning `some p`, and `copy_to_bytes::<N>` with `N > 0`
writes the integer part, the point, and exactly `N` fractional digits —
truncating the stored fractional digits or padding with ASCII `0` — and
returns `some (p + N + 1)`. -/
theorem claim_C5 (f : Formatted) (p N : Nat) (buf : List Nat) (h : InvB f = true)
    (hm : f.meta = .Decimal p) :
    (p ≤ buf.length →
      f.copy_to_bytes 0 buf = (some p, writeFront buf ((f.as_bytes).take p))) ∧
    (0 < N → p + N + 1 ≤ buf.length →
      f.copy_to_bytes N buf =
        (some (p + N + 1),
          writeFront buf
            ((f.as_bytes).take p ++ 46 :: padTrunc N ((f.as_bytes).drop (p + 1))))) := by
  obtain ⟨h32, hinit, _, hmeta⟩ := InvB_parts h
  obtain ⟨hp1, hplt, _⟩ := metaOk_decimal hmeta hm
  constructor
  · intro hle
    have hr : reqLen 0 f = p := by simp [reqLen, hm]
    have hp0 : payload 0 f = (f.as_bytes).take p := by
      unfold payload
      rw [hm]
      simp only [if_pos rfl]
      exact readBytes_eq_take f p (by omega)
    rw [copy_eq, hr, if_neg (Nat.not_lt.2 hle), hp0]
  · intro hN hle
    have hNz : N ≠ 0 := by omega
    have hr : reqLen N f = p + N + 1 := by simp [reqLen, hm, hNz]
    rw [copy_eq, hr, if_neg (Nat.not_lt.2 hle),
      payload_decimal_shape f p N h hm hNz]

/-- C5 witness: on `sample` ("3.14159", point at offset 1):
`copy_to_bytes::<0>` into a 2-byte buffer gives "3" and `some 1`, and
`copy_to_bytes::<8>` into a 10-byte buffer gives "3.14159000" and
`some 10`, mirroring `test_decimal_zero_places` and `test_decimal_basic`. -/
theorem claim_C5_witness :
    Formatted.copy_to_bytes 0 sample (List.replicate 2 55) = (some 1, [51, 55]) ∧
    Formatted.copy_to_bytes 8 sample (List.replicate 10 55) =
      (some 10, [51, 46, 49, 52, 49, 53, 57, 48, 48, 48]) := by
  have h : InvB sample = true := by decide
  constructor
  · have h1 := (claim_C5 sample 1 8 (List.replicate 2 55) h rfl).1 (by decide)
    rw [h1]
    decide
  · have h2 := (claim_C5 sample 1 8 (List.replicate 10 55) h rfl).2 (by decide) (by decide)
    rw [h2]
    decide

theorem payload_exponent_none (f : Formatted) (ex N : Nat) (hm : f.meta = .Exponent none ex) :
    payload N f =
      (f.as_bytes).take ex ++ (if N = 0 then [] else 46 :: padTrunc N []) ++
        (f.as_bytes).drop ex := by
  have hpt : padTrunc N ([] : List Nat) = List.replicate N 48 := by simp [padTrunc]
  unfold payload
  rw [hm]
  by_cases hN : N = 0
  · simp [hN]
  · simp [hN, hpt]

theorem payload_exponent_some (f : Formatted) (d ex N : Nat) (h : InvB f = true)
    (hm : f.meta = .Exponent (some d) ex) :
    payload N f =
      (f.as_bytes).take d ++
        (if N = 0 then []
         else 46 :: padTrunc N (((f.as_bytes).drop (d + 1)).take (ex - (d + 1)))) ++
        (f.as_bytes).drop ex := by
  obtain ⟨h32, hinit, _, hmeta⟩ := InvB_parts h
  obtain ⟨hdp, hex, _⟩ := metaOk_exponent hmeta hm
  obtain ⟨hd1, hd2, hdot⟩ := hdp d rfl
  have hA : f.as_bytes.length = f.initialized := as_bytes_length f h32 hinit
  have hde : (f.as_bytes)[d]? = some 46 :=
    as_bytes_getElem? f d (by omega) (by omega) hdot
  have hdlt : d < (f.as_bytes).length := by omega
  have hdv : (f.as_bytes)[d] = 46 := by
    have := hde
    rwa [List.getElem?_eq_getElem hdlt, Option.some_inj] at this
  have hdrop : (f.as_bytes).drop d = 46 :: (f.as_bytes).drop (d + 1) := by
    rw [List.drop_eq_getElem_cons hdlt, hdv]
  have hFlen : (((f.as_bytes).drop (d + 1)).take (ex - (d + 1))).length = ex - (d + 1) := by
    rw [List.length_take, List.length_drop, hA]
    omega
  have hbdp : ((f.as_bytes).drop d).take (ex - d) =
      46 :: ((f.as_bytes).drop (d + 1)).take (ex - (d + 1)) := by
    rw [hdrop, show ex - d = ex - (d + 1) + 1 by omega, List.take_succ_cons]
  by_cases hN : N = 0
  · subst hN
    unfold payload
    rw [hm]
    simp [Nat.add_sub_cancel' (show d ≤ ex by omega)]
  · unfold payload
    rw [hm]
    simp only [if_neg hN]
    rw [show d + (ex - d) = ex by omega, if_neg (Nat.succ_ne_zero N)]
    by_cases hc : ex - d ≤ N + 1
    · rw [if_pos hc, if_neg (show ¬ex - d = 0 by omega), hbdp]
      unfold padTrunc
      rw [List.take_of_length_le (by omega : (((f.as_bytes).drop (d + 1)).take (ex - (d + 1))).length ≤ N),
        hFlen, show N + 1 - (ex - d) = N - (ex - (d + 1)) by omega]
      simp
    · rw [if_neg hc, hbdp, List.take_succ_cons]
      unfold padTrunc
      rw [hFlen, show N - (ex - (d + 1)) = 0 by omega]
      simp

/-- C6: for a well-formed `Formatted` with `Exponent` layout and a large
enough buffer, `copy_to_bytes::<N>` copies the sign and leading integer
digit unchanged, inserts a decimal point when the stored text has none and
`N > 0`, pads with ASCII `0` or truncates so that exactly `N` fractional
digits appear (and drops the decimal point entirely when `N = 0`), and
copies the exponent marker and exponent digits unchanged, last.  In
particular, on the `Formatted` for 3e20 (text "3e20"), two decimal places
give "3.00e20". -/
theorem claim_C6 :
    (∀ (f : Formatted) (ex N : Nat) (buf : List Nat), InvB f = true →
      f.meta = .Exponent none ex → reqLen N f ≤ buf.length →
      f.copy_to_bytes N buf =
        (some (reqLen N f),
          writeFront buf
            ((f.as_bytes).take ex ++ (if N = 0 then [] else 46 :: padTrunc N []) ++
              (f.as_bytes).drop ex))) ∧
    (∀ (f : Formatted) (d ex N : Nat) (buf : List Nat), InvB f = true →
      f.meta = .Exponent (some d) ex → reqLen N f ≤ buf.length →
      f.copy_to_bytes N buf =
        (some (reqLen N f),
          writeFront buf
            ((f.as_bytes).take d ++
              (if N = 0 then []
               else 46 :: padTrunc N (((f.as_bytes).drop (d + 1)).take (ex - (d + 1)))) ++
              (f.as_bytes).drop ex))) ∧
    f3e20.as_bytes = [51, 101, 50, 48] ∧
    Formatted.copy_to_bytes 2 f3e20 (List.replicate 7 55) =
      (some 7, [51, 46, 48, 48, 101, 50, 48]) := by
  refine ⟨?_, ?_, by decide, by decide⟩
  · intro f ex N buf h hm hle
    rw [copy_eq, if_neg (Nat.not_lt.2 hle), payload_exponent_none f ex N hm]
  · intro f d ex N buf h hm hle
    rw [copy_eq, if_neg (Nat.not_lt.2 hle), payload_exponent_some f d ex N h hm]

/-- C6 witness: the first component of the claim applied to the concrete
"3e20" value with zero decimal places: the copy returns the text unchanged
("3e20", no decimal point). -/
theorem claim_C6_witness :
    InvB f3e20 = true ∧
    Formatted.copy_to_bytes 0 f3e20 (List.replicate 4 55) =
      (some (reqLen 0 f3e20),
        writeFront (List.replicate 4 55)
          ((f3e20.as_bytes).take 1 ++ (if (0 : Nat) = 0 then [] else 46 :: padTrunc 0 []) ++
            (f3e20.as_bytes).drop 1)) :=
  ⟨by decide, claim_C6.1 f3e20 1 0 (List.replicate 4 55) (by decide) rfl (by decide)⟩

/-- C8: for every well-formed `Formatted` and every `N`, `as_str_fixed_dp`
returns, when the layout is `Decimal` with the point at offset `p` and the
stored fractional part has at least `N` digits (`p + N < initialized`), a
slice of the existing bytes truncated to exactly `N` fractional digits
(never rounding); in every other case (fewer stored fractional digits, or
`Exponent`/`Nonfinite` layout) the original text unchanged — so it never
lengthens the text. -/
theorem claim_C8 (f : Formatted) (N : Nat) (h : InvB f = true) :
    (∀ p, f.meta = .Decimal p →
      (p + N < f.initialized →
        f.as_str_fixed_dp N = (f.as_bytes).take (p + N + 1)) ∧
      (f.initialized ≤ p + N → f.as_str_fixed_dp N = f.as_bytes)) ∧
    (∀ dp ex, f.meta = .Exponent dp ex → f.as_str_fixed_dp N = f.as_bytes) ∧
    (f.meta = .Nonfinite → f.as_str_fixed_dp N = f.as_bytes) ∧
    (f.as_str_fixed_dp N).length ≤ (f.as_bytes).length := by
  obtain ⟨h32, hinit, _, hmeta⟩ := InvB_parts h
  refine ⟨?_, ?_, ?_, ?_⟩
  · intro p hm
    constructor
    · intro hlt
      simp only [Formatted.as_str_fixed_dp, hm, if_pos hlt]
      exact readBytes_eq_take f _ (by omega)
    · intro hge
      simp only [Formatted.as_str_fixed_dp, hm, if_neg (by omega : ¬p + N < f.initialized)]
  · intro dp ex hm
    simp only [Formatted.as_str_fixed_dp, hm]
  · intro hm
    simp only [Formatted.as_str_fixed_dp, hm]
  · cases hm : f.meta with
    | Decimal p =>
      simp only [Formatted.as_str_fixed_dp, hm]
      split_ifs with hlt
      · rw [readBytes_eq_take f _ (by omega), List.length_take]
        omega
      · exact Nat.le_refl _
    | Exponent dp ex => simp [Formatted.as_str_fixed_dp, hm]
    | Nonfinite => simp [Formatted.as_str_fixed_dp, hm]

/-- C8 witness: on `sample` ("3.14159"), requesting two decimal places slices
the text down to "3.14" (the first four bytes), mirroring the doc example. -/
theorem claim_C8_witness :
    Formatted.as_str_fixed_dp 2 sample = (sample.as_bytes).take (1 + 2 + 1) :=
  ((claim_C8 sample 2 (by decide)).1 1 rfl).1 (by decide)

theorem lit_cases64 (bits : Nat) :
    format_nonfinite_f64 bits = NAN ∨ format_nonfinite_f64 bits = NEG_INFINITY ∨
      format_nonfinite_f64 bits = INFINITY := by
  unfold format_nonfinite_f64
  split_ifs <;> tauto

theorem lit_cases32 (bits : Nat) :
    format_nonfinite_f32 bits = NAN ∨ format_nonfinite_f32 bits = NEG_INFINITY ∨
      format_nonfinite_f32 bits = INFINITY := by
  unfold format_nonfinite_f32
  split_ifs <;> tauto

theorem mkNonfinite_as_bytes (lit : List Nat) (h : lit.length ≤ BUFFER_LEN) :
    (mkNonfinite lit).as_bytes = lit := by
  unfold mkNonfinite Formatted.as_bytes readBytes
  simp only
  rw [show lit.length = (lit.map some).length by simp, List.take_left, List.map_map]
  simp [Function.comp_def]

theorem copy_nonfinite (f : Formatted) (hm : f.meta = .Nonfinite) (N : Nat)
    (buf : List Nat) (h : f.initialized ≤ buf.length) :
    f.copy_to_bytes N buf = (some f.initialized, writeFront buf f.as_bytes) := by
  unfold Formatted.copy_to_bytes
  rw [hm]
  simp only
  rw [if_neg (Nat.not_lt.2 h)]

theorem lit_le64 (bits : Nat) : (format_nonfinite_f64 bits).length ≤ BUFFER_LEN := by
  rcases lit_cases64 bits with hl | hl | hl <;> rw [hl] <;> decide

theorem lit_le32 (bits : Nat) : (format_nonfinite_f32 bits).length ≤ BUFFER_LEN := by
  rcases lit_cases32 bits with hl | hl | hl <;> rw [hl] <;> decide

/-- C7: for every non-finite f64 (resp. f32) bit pattern, `format_f64`
(resp. `format_f32`) yields exactly one of the literals "NaN", "inf",
"-inf": "NaN" whenever the mantissa bits are nonzero regardless of sign,
otherwise "inf" or "-inf" according to the sign bit; and on such a
`Nonfinite` result, `copy_to_bytes::<N>` copies the literal unchanged for
every `N` (given a buffer at least as long as the literal). -/
theorem claim_C7 :
    (∀ (format_finite : Nat → Formatted) (bits : Nat), bits < 2 ^ 64 →
      is_nonfinite_f64 bits = true →
      ((format_f64 format_finite bits).as_bytes = format_nonfinite_f64 bits ∧
       (bits % 2 ^ 52 ≠ 0 → format_nonfinite_f64 bits = NAN) ∧
       (bits % 2 ^ 52 = 0 → bits < 2 ^ 63 → format_nonfinite_f64 bits = INFINITY) ∧
       (bits % 2 ^ 52 = 0 → 2 ^ 63 ≤ bits → format_nonfinite_f64 bits = NEG_INFINITY) ∧
       (∀ (N : Nat) (buf : List Nat), (format_nonfinite_f64 bits).length ≤ buf.length →
         (format_f64 format_finite bits).copy_to_bytes N buf =
           (some (format_nonfinite_f64 bits).length,
             writeFront buf (format_nonfinite_f64 bits))))) ∧
    (∀ (format_finite : Nat → Formatted) (bits : Nat), bits < 2 ^ 32 →
      is_nonfinite_f32 bits = true →
      ((format_f32 format_finite bits).as_bytes = format_nonfinite_f32 bits ∧
       (bits % 2 ^ 23 ≠ 0 → format_nonfinite_f32 bits = NAN) ∧
       (bits % 2 ^ 23 = 0 → bits < 2 ^ 31 → format_nonfinite_f32 bits = INFINITY) ∧
       (bits % 2 ^ 23 = 0 → 2 ^ 31 ≤ bits → format_nonfinite_f32 bits = NEG_INFINITY) ∧
       (∀ (N : Nat) (buf : List Nat), (format_nonfinite_f32 bits).length ≤ buf.length →
         (format_f32 format_finite bits).copy_to_bytes N buf =
           (some (format_nonfinite_f32 bits).length,
             writeFront buf (format_nonfinite_f32 bits))))) := by
  constructor
  · intro ff bits hb hnon
    have hfmt : format_f64 ff bits = mkNonfinite (format_nonfinite_f64 bits) := by
      unfold format_f64
      rw [if_pos hnon]
    refine ⟨?_, ?_, ?_, ?_, ?_⟩
    · rw [hfmt]
      exact mkNonfinite_as_bytes _ (lit_le64 bits)
    · intro hmant
      unfold format_nonfinite_f64
      rw [if_pos hmant]
    · intro hm0 hsign
      unfold format_nonfinite_f64
      rw [if_neg (not_not_intro hm0),
        if_neg (show ¬bits / 2 ^ 63 % 2 = 1 by rw [Nat.div_eq_of_lt hsign]; decide)]
    · intro hm0 hsign
      have p63 : (2 : Nat) ^ 63 = 9223372036854775808 := by norm_num
      have p64 : (2 : Nat) ^ 64 = 18446744073709551616 := by norm_num
      have hdiv : bits / 2 ^ 63 = 1 := by
        rw [p63] at hsign ⊢
        rw [p64] at hb
        omega
      unfold format_nonfinite_f64
      rw [if_neg (not_not_intro hm0),
        if_pos (show bits / 2 ^ 63 % 2 = 1 by rw [hdiv])]
    · intro N buf hlen
      rw [hfmt, copy_nonfinite _ rfl N buf hlen,
        mkNonfinite_as_bytes _ (lit_le64 bits)]
      rfl
  · intro ff bits hb hnon
    have hfmt : format_f32 ff bits = mkNonfinite (format_nonfinite_f32 bits) := by
      unfold format_f32
      rw [if_pos hnon]
    refine ⟨?_, ?_, ?_, ?_, ?_⟩
    · rw [hfmt]
      exact mkNonfinite_as_bytes _ (lit_le32 bits)
    · intro hmant
      unfold format_nonfinite_f32
      rw [if_pos hmant]
    · intro hm0 hsign
      unfold format_nonfinite_f32
      rw [if_neg (not_not_intro hm0),
        if_neg (show ¬bits / 2 ^ 31 % 2 = 1 by rw [Nat.div_eq_of_lt hsign]; decide)]
    · intro hm0 hsign
      have p31 : (2 : Nat) ^ 31 = 2147483648 := by norm_num
      have p32 : (2 : Nat) ^ 32 = 4294967296 := by norm_num
      have hdiv : bits / 2 ^ 31 = 1 := by
        rw [p31] at hsign ⊢
        rw [p32] at hb
        omega
      unfold format_nonfinite_f32
      rw [if_neg (not_not_intro hm0),
        if_pos (show bits / 2 ^ 31 % 2 = 1 by rw [hdiv])]
    · intro N buf hlen
      rw [hfmt, copy_nonfinite _ rfl N buf hlen,
        mkNonfinite_as_bytes _ (lit_le32 bits)]
      rfl

/-- C7 witness: the f64 quiet-NaN pattern renders as "NaN" (sign ignored),
and the negative-infinity pattern renders as "-inf". -/
theorem claim_C7_witness :
    (format_f64 (fun _ => sample) 0x7ff8000000000000).as_bytes = NAN ∧
    (format_f64 (fun _ => sample) 0xfff0000000000000).as_bytes = NEG_INFINITY := by
  have h1 := claim_C7.1 (fun _ => sample) 0x7ff8000000000000 (by decide) (by decide)
  have h2 := claim_C7.1 (fun _ => sample) 0xfff0000000000000 (by decide) (by decide)
  exact ⟨h1.1.trans (h1.2.1 (by decide)),
    h2.1.trans (h2.2.2.2.1 (by decide) (by decide))⟩

theorem reqLen_le (N : Nat) (f : Formatted) (h : SpecFormattedB f = true) :
    reqLen N f ≤ BUFFER_LEN + N := by
  have hi : InvB f = true := by
    unfold SpecFormattedB at h
    simp only [Bool.and_eq_true] at h
    exact h.1
  obtain ⟨h32, hinit, _, hmeta⟩ := InvB_parts hi
  unfold SpecFormattedB at h
  cases hm : f.meta with
  | Decimal p =>
    obtain ⟨hp1, hplt, _⟩ := metaOk_decimal hmeta hm
    simp only [reqLen, hm, BUFFER_LEN] at *
    split_ifs <;> omega
  | Exponent dp ex =>
    obtain ⟨hdp, hex, _⟩ := metaOk_exponent hmeta hm
    rw [hm] at h
    cases dp with
    | none =>
      simp only [Bool.and_eq_true, decide_eq_true_eq] at h
      obtain ⟨-, hex2, htail⟩ := h
      simp only [reqLen, hm, BUFFER_LEN] at *
      split_ifs <;> omega
    | some d =>
      obtain ⟨hd1, hd2, -⟩ := hdp d rfl
      simp only [Bool.and_eq_true, decide_eq_true_eq] at h
      simp only [reqLen, hm, BUFFER_LEN] at *
      split_ifs <;> omega
  | Nonfinite =>
    simp only [reqLen, hm, BUFFER_LEN] at *
    omega

/-- C9: every `Formatted` a formatter can produce for a finite value
(characterized by `SpecFormattedB`, modelled from the spec since the finite
renderer is not under the verified sources) makes `copy_to_bytes::<N>`
succeed whenever the caller buffer holds at least `BUFFER_LEN + N = 32 + N`
bytes: the `none` branch is unreachable under this buffer-size
precondition. -/
theorem claim_C9 (f : Formatted) (N : Nat) (buf : List Nat)
    (h : SpecFormattedB f = true) (hbuf : BUFFER_LEN + N ≤ buf.length) :
    (f.copy_to_bytes N buf).1 = some (reqLen N f) := by
  rw [copy_eq, if_neg (Nat.not_lt.2 (le_trans (reqLen_le N f h) hbuf))]

/-- C9 witness: the rendering of 3.14159 with a 32-byte buffer and no extra
decimal places succeeds. -/
theorem claim_C9_witness :
    (Formatted.copy_to_bytes 0 sample (List.replicate 32 0)).1 = some (reqLen 0 sample) :=
  claim_C9 sample 0 (List.replicate 32 0) (by decide) (by decide)

/-- C10: every `Formatted` the four formatters can return (`ProducedBy`,
with the finite-path outputs modelled from the spec since the finite
renderer is not under the verified sources) keeps `initialized ≤ 32`, has
its first `initialized` buffer cells initialized to ASCII bytes, and
`as_bytes` returns exactly those first `initialized` bytes. -/
theorem claim_C10 (f : Formatted) (h : ProducedBy f) :
    f.initialized ≤ BUFFER_LEN ∧
    (f.bytes.take f.initialized).all isAscii = true ∧
    f.as_bytes = (f.bytes.take f.initialized).map (fun o => o.getD 0) ∧
    (f.as_bytes).length = f.initialized := by
  rcases h with ⟨bits, hb, hnon, rfl⟩ | ⟨bits, hb, hnon, rfl⟩ | hspec
  · rcases lit_cases64 bits with hl | hl | hl <;> rw [hl] <;> decide
  · rcases lit_cases32 bits with hl | hl | hl <;> rw [hl] <;> decide
  · have hi : InvB f = true := by
      unfold SpecFormattedB at hspec
      simp only [Bool.and_eq_true] at hspec
      exact hspec.1
    obtain ⟨h32, hinit, hascii, _⟩ := InvB_parts hi
    exact ⟨hinit, hascii, rfl, as_bytes_length f h32 hinit⟩

/-- C10 witness: the invariant holds for the `Formatted` built by
`format_f64` on the f64 quiet-NaN bit pattern. -/
theorem claim_C10_witness :
    (mkNonfinite (format_nonfinite_f64 0x7ff8000000000000)).initialized ≤ BUFFER_LEN ∧
    ((mkNonfinite (format_nonfinite_f64 0x7ff8000000000000)).bytes.take
      (mkNonfinite (format_nonfinite_f64 0x7ff8000000000000)).initialized).all isAscii = true ∧
    (mkNonfinite (format_nonfinite_f64 0x7ff8000000000000)).as_bytes =
      ((mkNonfinite (format_nonfinite_f64 0x7ff8000000000000)).bytes.take
        (mkNonfinite (format_nonfinite_f64 0x7ff8000000000000)).initialized).map
        (fun o => o.getD 0) ∧
    ((mkNonfinite (format_nonfinite_f64 0x7ff8000000000000)).as_bytes).length =
      (mkNonfinite (format_nonfinite_f64 0x7ff8000000000000)).initialized :=
  claim_C10 _ (Or.inl ⟨0x7ff8000000000000, by decide, by decide, rfl⟩)

/-! Lemmas on the magnitude enumeration. -/

theorem nvIdx_succ (W k : Nat) : nvIdx W (k + 1) = nvIdx W k + ulpIdx W k := by
  have hP : 0 < 2 ^ W := Nat.two_pow_pos W
  have hmod : k % 2 ^ W < 2 ^ W := Nat.mod_lt _ hP
  by_cases hcase : k % 2 ^ W + 1 < 2 ^ W
  · have hdiv1 : (k + 1) / 2 ^ W = k / 2 ^ W := by
      conv_lhs => rw [← Nat.div_add_mod k (2 ^ W), Nat.add_assoc]
      rw [Nat.mul_add_div hP, Nat.div_eq_of_lt hcase, Nat.add_zero]
    have hmod1 : (k + 1) % 2 ^ W = k % 2 ^ W + 1 := by
      conv_lhs => rw [← Nat.div_add_mod k (2 ^ W), Nat.add_assoc]
      rw [Nat.mul_add_mod, Nat.mod_eq_of_lt hcase]
    unfold nvIdx natval ulpIdx
    rw [hdiv1, hmod1]
    by_cases he : k / 2 ^ W = 0
    · simp [he]
    · simp only [if_neg he]
      rw [show 2 ^ W + (k % 2 ^ W + 1) = (2 ^ W + k % 2 ^ W) + 1 by omega,
        Nat.succ_mul]
  · have hm1 : k % 2 ^ W + 1 = 2 ^ W := by omega
    have hdiv1 : (k + 1) / 2 ^ W = k / 2 ^ W + 1 := by
      conv_lhs => rw [← Nat.div_add_mod k (2 ^ W), Nat.add_assoc, hm1, ← Nat.mul_succ]
      exact Nat.mul_div_cancel_left _ hP
    have hmod1 : (k + 1) % 2 ^ W = 0 := by
      conv_lhs => rw [← Nat.div_add_mod k (2 ^ W), Nat.add_assoc, hm1, ← Nat.mul_succ]
      exact Nat.mul_mod_right _ _
    unfold nvIdx natval ulpIdx
    rw [hdiv1, hmod1]
    by_cases he : k / 2 ^ W = 0
    · simp only [he, if_neg (Nat.succ_ne_zero 0), if_pos rfl]
      simp
      omega
    · simp only [if_neg (Nat.succ_ne_zero _), if_neg he]
      obtain ⟨E, hE⟩ := Nat.exists_eq_succ_of_ne_zero he
      rw [hE, Nat.eq_sub_of_add_eq hm1]
      simp only [Nat.add_sub_cancel, Nat.succ_sub_one]
      obtain ⟨Q, hQ⟩ : ∃ Q, 2 ^ W = Q + 1 :=
        ⟨2 ^ W - 1, (Nat.succ_pred_eq_of_pos hP).symm⟩
      rw [hQ]
      simp only [Nat.add_sub_cancel]
      rw [pow_succ]
      ring

theorem ulpIdx_pos (W k : Nat) : 0 < ulpIdx W k := by
  unfold ulpIdx
  split
  · exact Nat.one_pos
  · exact Nat.two_pow_pos _

theorem nvIdx_strictMono (W : Nat) : StrictMono (nvIdx W) :=
  strictMono_nat_of_lt_succ fun k => by
    rw [nvIdx_succ]
    have := ulpIdx_pos W k
    omega

theorem nvIdx_zero (W : Nat) : nvIdx W 0 = 0 := by
  unfold nvIdx natval
  simp

theorem nvIdx_one (W : Nat) (hW : 0 < W) : nvIdx W 1 = 1 := by
  have h2 : 1 < 2 ^ W := by
    calc 1 < 2 ^ 1 := by norm_num
    _ ≤ 2 ^ W := Nat.pow_le_pow_right (by norm_num) hW
  unfold nvIdx natval
  rw [Nat.div_eq_of_lt h2, Nat.mod_eq_of_lt h2]
  simp

theorem nvIdx_top (W EMAX : Nat) : nvIdx W (maxIdx W EMAX + 1) = 2 ^ (W + EMAX) := by
  have hP : 0 < 2 ^ W := Nat.two_pow_pos W
  have h1 : maxIdx W EMAX + 1 = (EMAX + 1) * 2 ^ W := by
    unfold maxIdx
    have : 1 ≤ (EMAX + 1) * 2 ^ W := Nat.one_le_iff_ne_zero.2 (by positivity)
    omega
  unfold nvIdx natval
  rw [h1, Nat.mul_div_cancel _ hP, Nat.mul_mod_left,
    if_neg (Nat.succ_ne_zero EMAX), Nat.add_sub_cancel, pow_add]
  ring

theorem scaleQ_pos (B : Nat) : 0 < scaleQ B :=
  zpow_pos (by norm_num) _

/-! Lemmas on the rounding intervals. -/

theorem lowBound_le_magval (W B k : Nat) : lowBound W B k ≤ magval W B k := by
  have hs := scaleQ_pos B
  have h1 : nvIdx W (k - 1) ≤ nvIdx W k := (nvIdx_strictMono W).monotone (Nat.sub_le k 1)
  have hX : ((nvIdx W (k - 1) + nvIdx W k : Nat) : ℚ) ≤ 2 * (nvIdx W k : ℚ) := by
    push_cast
    have h1q : ((nvIdx W (k - 1) : ℚ)) ≤ (nvIdx W k : ℚ) := by exact_mod_cast h1
    linarith
  unfold lowBound magval
  nlinarith [mul_le_mul_of_nonneg_right hX hs.le]

theorem lowBound_lt_magval (W B k : Nat) (hk : 0 < k) : lowBound W B k < magval W B k := by
  have hs := scaleQ_pos B
  have h1 : nvIdx W (k - 1) < nvIdx W k := nvIdx_strictMono W (by omega)
  have hX : ((nvIdx W (k - 1) + nvIdx W k : Nat) : ℚ) < 2 * (nvIdx W k : ℚ) := by
    push_cast
    have h1q : ((nvIdx W (k - 1) : ℚ)) < (nvIdx W k : ℚ) := by exact_mod_cast h1
    linarith
  unfold lowBound magval
  nlinarith [mul_lt_mul_of_pos_right hX hs]

theorem magval_lt_highBound (W B k : Nat) : magval W B k < highBound W B k := by
  have hs := scaleQ_pos B
  have h1 : nvIdx W k < nvIdx W (k + 1) := nvIdx_strictMono W (by omega)
  have hX : 2 * (nvIdx W k : ℚ) < ((nvIdx W k + nvIdx W (k + 1) : Nat) : ℚ) := by
    push_cast
    have h1q : ((nvIdx W k : ℚ)) < (nvIdx W (k + 1) : ℚ) := by exact_mod_cast h1
    linarith
  unfold magval highBound
  nlinarith [mul_lt_mul_of_pos_right hX hs]

theorem rounds_self (W B k : Nat) : roundsToB W B (magval W B k) k = true := by
  unfold roundsToB
  split_ifs with hpar
  · simp only [Bool.and_eq_true, decide_eq_true_eq]
    exact ⟨lowBound_le_magval W B k, (magval_lt_highBound W B k).le⟩
  · simp only [Bool.and_eq_true, decide_eq_true_eq]
    have hk : 0 < k := by omega
    exact ⟨lowBound_lt_magval W B k hk, magval_lt_highBound W B k⟩

theorem rounds_le_high (W B : Nat) {v : ℚ} {k : Nat} (h : roundsToB W B v k = true) :
    v ≤ highBound W B k := by
  unfold roundsToB at h
  split_ifs at h <;> simp only [Bool.and_eq_true, decide_eq_true_eq] at h
  · exact h.2
  · exact h.2.le

theorem rounds_low_le (W B : Nat) {v : ℚ} {k : Nat} (h : roundsToB W B v k = true) :
    lowBound W B k ≤ v := by
  unfold roundsToB at h
  split_ifs at h <;> simp only [Bool.and_eq_true, decide_eq_true_eq] at h
  · exact h.1
  · exact h.1.le

theorem bound_scale_le {a b : Nat} (B : Nat) (h : a ≤ b) :
    ((a : Nat) : ℚ) * scaleQ B / 2 ≤ ((b : Nat) : ℚ) * scaleQ B / 2 := by
  have hs := scaleQ_pos B
  have hq : ((a : Nat) : ℚ) ≤ ((b : Nat) : ℚ) := by exact_mod_cast h
  have := mul_le_mul_of_nonneg_right hq hs.le
  linarith

theorem rounds_disjoint (W B : Nat) (v : ℚ) (j k : Nat) (hjk : j < k)
    (hj : roundsToB W B v j = true) (hk : roundsToB W B v k = true) : False := by
  have hs := scaleQ_pos B
  have mono := nvIdx_strictMono W
  have hvj : v ≤ highBound W B j := rounds_le_high W B hj
  have hvk : lowBound W B k ≤ v := rounds_low_le W B hk
  have h1 : nvIdx W j ≤ nvIdx W (k - 1) := mono.monotone (by omega)
  have h2 : nvIdx W (j + 1) ≤ nvIdx W k := mono.monotone (by omega)
  have hhl : highBound W B j ≤ lowBound W B k := by
    unfold highBound lowBound
    exact bound_scale_le B (by omega)
  rcases eq_or_lt_of_le hhl with heq2 | hlt2
  · -- shared end: the intervals touch, so k = j + 1 and the parities differ
    have hsum : nvIdx W j + nvIdx W (j + 1) = nvIdx W (k - 1) + nvIdx W k := by
      have hX : ((nvIdx W j + nvIdx W (j + 1) : Nat) : ℚ) =
          ((nvIdx W (k - 1) + nvIdx W k : Nat) : ℚ) := by
        have hs0 : scaleQ B ≠ 0 := ne_of_gt hs
        have h3 : ((nvIdx W j + nvIdx W (j + 1) : Nat) : ℚ) * scaleQ B =
            ((nvIdx W (k - 1) + nvIdx W k : Nat) : ℚ) * scaleQ B := by
          unfold highBound lowBound at heq2
          linarith
        exact mul_right_cancel₀ hs0 h3
      exact_mod_cast hX
    have hk1 : k = j + 1 := by
      by_contra hne2
      have h3 : nvIdx W j < nvIdx W (k - 1) := mono (by omega)
      omega
    have hveq : v = highBound W B j := le_antisymm hvj (heq2 ▸ hvk)
    subst hk1
    unfold roundsToB at hj hk
    by_cases hpj : j % 2 = 0
    · rw [if_neg (by omega : ¬(j + 1) % 2 = 0)] at hk
      simp only [Bool.and_eq_true, decide_eq_true_eq] at hk
      have : highBound W B j < v := heq2 ▸ hk.1
      linarith [hveq ▸ this]
    · rw [if_neg hpj] at hj
      simp only [Bool.and_eq_true, decide_eq_true_eq] at hj
      have : v < highBound W B j := hj.2
      rw [hveq] at this
      exact lt_irrefl _ this
  · linarith

theorem rounds_unique (W B : Nat) (v : ℚ) (j k : Nat)
    (hj : roundsToB W B v j = true) (hk : roundsToB W B v k = true) : j = k := by
  rcases lt_trichotomy j k with hlt | heq | hgt
  · exact absurd (rounds_disjoint W B v j k hlt hj hk) (not_false)
  · exact heq
  · exact absurd (rounds_disjoint W B v k j hgt hk hj) (not_false)

theorem nvIdx_ge_one (W k : Nat) (hW : 0 < W) (hk : 0 < k) : 1 ≤ nvIdx W k := by
  have := (nvIdx_strictMono W).monotone hk
  rw [nvIdx_one W hW] at this
  exact this

theorem lowBound_pos (W B k : Nat) (hW : 0 < W) (hk : 0 < k) : 0 < lowBound W B k := by
  have hs := scaleQ_pos B
  have h1 := nvIdx_ge_one W k hW hk
  have hX : (1 : ℚ) ≤ ((nvIdx W (k - 1) + nvIdx W k : Nat) : ℚ) := by
    exact_mod_cast (by omega : 1 ≤ nvIdx W (k - 1) + nvIdx W k)
  unfold lowBound
  nlinarith

theorem rounds_val_pos (W B : Nat) (v : ℚ) (k : Nat) (hW : 0 < W) (hk : 0 < k)
    (hr : roundsToB W B v k = true) : 0 < v :=
  lt_of_lt_of_le (lowBound_pos W B k hW hk) (rounds_low_le W B hr)

/-! The formatter: existence and characterization. -/

theorem decval_witness (W B k : Nat) (hB : 1 ≤ B) :
    decval (nvIdx W k * 5 ^ (B - 1)) (1 - (B : ℤ)) = magval W B k := by
  unfold decval magval scaleQ
  rw [show (1 : ℤ) - B = -((B - 1 : Nat) : ℤ) by rw [Nat.cast_sub hB]; ring]
  push_cast
  rw [zpow_neg, zpow_neg, zpow_natCast, zpow_natCast]
  have h10 : ((10 : ℚ)) ^ (B - 1) ≠ 0 := by positivity
  have h2 : ((2 : ℚ)) ^ (B - 1) ≠ 0 := by positivity
  field_simp
  rw [show (10 : ℚ) = 2 * 5 by norm_num, mul_pow]
  ring

theorem witness_mem (W B k : Nat) (hB1 : 1 ≤ B) (hB2 : B ≤ 1101) :
    ((nvIdx W k * 5 ^ (B - 1) : Nat), (1 : ℤ) - B) ∈ candidates (DBound W B k) := by
  unfold candidates DBound
  rw [List.mem_flatMap]
  refine ⟨nvIdx W k * 5 ^ (B - 1), List.mem_range.2 ?_, ?_⟩
  · calc nvIdx W k * 5 ^ (B - 1) < 10 ^ (nvIdx W k * 5 ^ (B - 1)) :=
      Nat.lt_pow_self (by norm_num) _
    _ ≤ 10 ^ (B + nvIdx W k * 5 ^ (B - 1)) :=
      Nat.pow_le_pow_right (by norm_num) (by omega)
  · rw [List.mem_map]
    refine ⟨(1 : ℤ) - B, ?_, rfl⟩
    unfold erange
    have hmem : 1101 + nvIdx W k * 5 ^ (B - 1) ∈
        List.range (1501 + (B + nvIdx W k * 5 ^ (B - 1))) :=
      List.mem_range.2 (by omega)
    have key : (1 : ℤ) - B =
        ((1101 + nvIdx W k * 5 ^ (B - 1) : Nat) : ℤ) -
          (1100 + ((B + nvIdx W k * 5 ^ (B - 1) : Nat) : ℤ)) := by
      push_cast
      ring
    rw [key]
    exact List.mem_map_of_mem
      (fun i : Nat => (i : ℤ) - (1100 + ((B + nvIdx W k * 5 ^ (B - 1) : Nat) : ℤ))) hmem

theorem found_at_dbound (W B k : Nat) (hB1 : 1 ≤ B) (hB2 : B ≤ 1101) :
    (foundPair W B k (DBound W B k)).isSome = true := by
  unfold foundPair
  simp only [List.find?_isSome]
  refine ⟨((nvIdx W k * 5 ^ (B - 1) : Nat), (1 : ℤ) - B), witness_mem W B k hB1 hB2, ?_⟩
  simp only
  rw [decval_witness W B k hB1]
  exact rounds_self W B k

theorem fmtData_eq (W EMAX B : Nat) (x : FiniteFloat W EMAX) (hB1 : 1 ≤ B) (hB2 : B ≤ 1101) :
    ∃ hex : ∃ d, (foundPair W B x.idx d).isSome = true,
      fmtData W EMAX B x =
        (Nat.find hex, (foundPair W B x.idx (Nat.find hex)).get (Nat.find_spec hex)) := by
  have h := found_at_dbound W B x.idx hB1 hB2
  refine ⟨⟨DBound W B x.idx, h⟩, ?_⟩
  unfold fmtData
  rw [dif_pos h]

theorem fmt_rounds (W EMAX B : Nat) (x : FiniteFloat W EMAX) (hB1 : 1 ≤ B) (hB2 : B ≤ 1101) :
    roundsToB W B (decval (fmtPair W EMAX B x).1 (fmtPair W EMAX B x).2) x.idx = true := by
  obtain ⟨hex, heq⟩ := fmtData_eq W EMAX B x hB1 hB2
  unfold fmtPair
  rw [heq]
  simp only
  have hspec := Nat.find_spec hex
  have hsome : foundPair W B x.idx (Nat.find hex) =
      some ((foundPair W B x.idx (Nat.find hex)).get hspec) :=
    (Option.some_get hspec).symm
  have h2 : (candidates (Nat.find hex)).find?
      (fun p => roundsToB W B (decval p.1 p.2) x.idx) =
      some ((foundPair W B x.idx (Nat.find hex)).get hspec) := hsome
  have hp := List.find?_some h2
  exact hp

theorem fmt_min (W EMAX B : Nat) (x : FiniteFloat W EMAX) (hB1 : 1 ≤ B) (hB2 : B ≤ 1101)
    (d : Nat) (hd : (foundPair W B x.idx d).isSome = true) :
    sigLen W EMAX B x ≤ d := by
  obtain ⟨hex, heq⟩ := fmtData_eq W EMAX B x hB1 hB2
  unfold sigLen
  rw [heq]
  exact Nat.find_min' hex hd

theorem fmt_mem (W EMAX B : Nat) (x : FiniteFloat W EMAX) (hB1 : 1 ≤ B) (hB2 : B ≤ 1101) :
    (fmtPair W EMAX B x).1 < 10 ^ sigLen W EMAX B x := by
  obtain ⟨hex, heq⟩ := fmtData_eq W EMAX B x hB1 hB2
  unfold fmtPair sigLen
  rw [heq]
  simp only
  have hspec := Nat.find_spec hex
  have hsome : foundPair W B x.idx (Nat.find hex) =
      some ((foundPair W B x.idx (Nat.find hex)).get hspec) :=
    (Option.some_get hspec).symm
  have hmem : ((foundPair W B x.idx (Nat.find hex)).get hspec) ∈ candidates (Nat.find hex) := by
    apply List.mem_of_find?_eq_some
    rw [← hsome]
    rfl
  unfold candidates at hmem
  rw [List.mem_flatMap] at hmem
  obtain ⟨m, hm, hmem2⟩ := hmem
  rw [List.mem_map] at hmem2
  obtain ⟨e, _, hpe⟩ := hmem2
  rw [← hpe]
  exact List.mem_range.1 hm

theorem lowBound_zero (W B : Nat) : lowBound W B 0 = 0 := by
  unfold lowBound
  rw [show (0 : Nat) - 1 = 0 from rfl, nvIdx_zero]
  simp

theorem rounds_zero (W B : Nat) : roundsToB W B 0 0 = true := by
  unfold roundsToB
  rw [if_pos (by norm_num : (0 : Nat) % 2 = 0)]
  simp only [Bool.and_eq_true, decide_eq_true_eq]
  constructor
  · rw [lowBound_zero]
  · unfold highBound
    have hs := scaleQ_pos B
    have hX : (0 : ℚ) ≤ ((nvIdx W 0 + nvIdx W 1 : Nat) : ℚ) := by positivity
    nlinarith

theorem foundPair_zero (W B : Nat) : (foundPair W B 0 0).isSome = true := by
  unfold foundPair
  simp only [List.find?_isSome]
  refine ⟨((0 : Nat), -(1100 : ℤ)), ?_, ?_⟩
  · unfold candidates
    rw [List.mem_flatMap]
    refine ⟨0, List.mem_range.2 (by norm_num), ?_⟩
    rw [List.mem_map]
    refine ⟨-(1100 : ℤ), ?_, rfl⟩
    unfold erange
    have hmem : 0 ∈ List.range (1501 + 0) := List.mem_range.2 (by norm_num)
    have key : -(1100 : ℤ) = ((0 : Nat) : ℤ) - (1100 + ((0 : Nat) : ℤ)) := by norm_num
    rw [key]
    exact List.mem_map_of_mem (fun i : Nat => (i : ℤ) - (1100 + ((0 : Nat) : ℤ))) hmem
  · simp only
    rw [show decval 0 (-(1100 : ℤ)) = 0 by unfold decval; simp]
    exact rounds_zero W B

theorem sigLen_eq_zero (W EMAX B : Nat) (x : FiniteFloat W EMAX) (hB1 : 1 ≤ B)
    (hB2 : B ≤ 1101) (hx : x.idx = 0) : sigLen W EMAX B x = 0 := by
  have h0 : (foundPair W B x.idx 0).isSome = true := by
    rw [hx]
    exact foundPair_zero W B
  have := fmt_min W EMAX B x hB1 hB2 0 h0
  omega

theorem idx_le_max (W EMAX : Nat) (x : FiniteFloat W EMAX) : x.idx ≤ maxIdx W EMAX := by
  have h1 := x.ex_le
  have h2 := x.man_lt
  have hP : 0 < 2 ^ W := Nat.two_pow_pos W
  have h3 : x.ex * 2 ^ W ≤ EMAX * 2 ^ W := Nat.mul_le_mul_right _ h1
  have h4 : (EMAX + 1) * 2 ^ W = EMAX * 2 ^ W + 2 ^ W := by ring
  unfold FiniteFloat.idx maxIdx
  omega

/-! Exponent range of any decimal that rounds to a nonzero finite magnitude. -/

theorem rounds_v_bounds (W EMAX B : Nat) (v : ℚ) (k : Nat) (hW : 0 < W) (hk : 0 < k)
    (hkmax : k ≤ maxIdx W EMAX) (hr : roundsToB W B v k = true) :
    scaleQ B / 2 ≤ v ∧ v ≤ ((2 ^ (W + EMAX) : Nat) : ℚ) * scaleQ B := by
  have hs := scaleQ_pos B
  constructor
  · have h1 := nvIdx_ge_one W k hW hk
    have hX : (1 : ℚ) ≤ ((nvIdx W (k - 1) + nvIdx W k : Nat) : ℚ) := by
      exact_mod_cast (by omega : 1 ≤ nvIdx W (k - 1) + nvIdx W k)
    have hlo := rounds_low_le W B hr
    unfold lowBound at hlo
    nlinarith
  · have hhi := rounds_le_high W B hr
    have h2 : nvIdx W (k + 1) ≤ 2 ^ (W + EMAX) := by
      rw [← nvIdx_top W EMAX]
      exact (nvIdx_strictMono W).monotone (by omega)
    have hX : ((nvIdx W k + nvIdx W (k + 1) : Nat) : ℚ) ≤ 2 * ((2 ^ (W + EMAX) : Nat) : ℚ) := by
      have h3 : nvIdx W k + nvIdx W (k + 1) ≤ 2 * 2 ^ (W + EMAX) := by
        have h5 : nvIdx W k ≤ nvIdx W (k + 1) := (nvIdx_strictMono W).monotone (by omega)
        omega
      calc ((nvIdx W k + nvIdx W (k + 1) : Nat) : ℚ) ≤ ((2 * 2 ^ (W + EMAX) : Nat) : ℚ) := by
            exact_mod_cast h3
        _ = 2 * ((2 ^ (W + EMAX) : Nat) : ℚ) := by push_cast; ring
    unfold highBound at hhi
    nlinarith

theorem scaleQ_half (B : Nat) : scaleQ B / 2 = (2 : ℚ) ^ (-(B : ℤ)) := by
  unfold scaleQ
  rw [zpow_sub₀ (by norm_num : (2 : ℚ) ≠ 0), zpow_neg, zpow_one]
  ring

theorem ten_le_two_neg (B : Nat) : (10 : ℚ) ^ (-(B : ℤ)) ≤ 2 ^ (-(B : ℤ)) := by
  rw [zpow_neg, zpow_neg]
  apply inv_anti₀ (by positivity)
  rw [zpow_natCast, zpow_natCast]
  exact pow_le_pow_left₀ (by norm_num) (by norm_num) B

theorem e_bounds (W EMAX B : Nat) (m : Nat) (e : ℤ) (d : Nat) (k : Nat)
    (hW : 0 < W) (hB2 : B ≤ 1101)
    (hU : ((2 ^ (W + EMAX) : Nat) : ℚ) * scaleQ B ≤ 10 ^ (400 : ℤ))
    (hk : 0 < k) (hkmax : k ≤ maxIdx W EMAX)
    (hm1 : 1 ≤ m) (hmd : m < 10 ^ d)
    (hr : roundsToB W B (decval m e) k = true) :
    (m, e) ∈ candidates d := by
  obtain ⟨hlo, hhi⟩ := rounds_v_bounds W EMAX B (decval m e) k hW hk hkmax hr
  have hm1q : (1 : ℚ) ≤ (m : ℚ) := by exact_mod_cast hm1
  have hmdq : (m : ℚ) < ((10 ^ d : Nat) : ℚ) := by exact_mod_cast hmd
  have h10pos : (0 : ℚ) < 10 ^ e := zpow_pos (by norm_num) e
  have hv1 : (10 : ℚ) ^ e ≤ decval m e := by
    unfold decval
    nlinarith
  have he400 : e ≤ 400 := by
    have h1 : (10 : ℚ) ^ e ≤ 10 ^ (400 : ℤ) := le_trans hv1 (le_trans hhi hU)
    exact (zpow_le_zpow_iff_right₀ (by norm_num : (1 : ℚ) < 10)).1 h1
  have hv2 : decval m e < (10 : ℚ) ^ (e + d) := by
    unfold decval
    rw [zpow_add₀ (by norm_num : (10 : ℚ) ≠ 0) e d, zpow_natCast]
    have : ((10 ^ d : Nat) : ℚ) = (10 : ℚ) ^ d := by push_cast; ring
    nlinarith [this ▸ hmdq]
  have hsv : (10 : ℚ) ^ (-(B : ℤ)) ≤ decval m e :=
    le_trans (ten_le_two_neg B) (le_trans (le_of_eq (scaleQ_half B).symm) hlo)
  have heB : -(1100 + (d : ℤ)) ≤ e := by
    have h1 : (10 : ℚ) ^ (-(B : ℤ)) < 10 ^ (e + d) := lt_of_le_of_lt hsv hv2
    have h2 : -(B : ℤ) < e + d := (zpow_lt_zpow_iff_right₀ (by norm_num : (1 : ℚ) < 10)).1 h1
    have h3 : (B : ℤ) ≤ 1101 := by exact_mod_cast hB2
    omega
  unfold candidates
  rw [List.mem_flatMap]
  refine ⟨m, List.mem_range.2 hmd, ?_⟩
  rw [List.mem_map]
  refine ⟨e, ?_, rfl⟩
  unfold erange
  have hnn : 0 ≤ e + (1100 + (d : ℤ)) := by omega
  have hmem : (e + (1100 + (d : ℤ))).toNat ∈ List.range (1501 + d) := by
    apply List.mem_range.2
    have h4 : ((e + (1100 + (d : ℤ))).toNat : ℤ) < ((1501 + d : Nat) : ℤ) := by
      rw [Int.toNat_of_nonneg hnn]
      push_cast
      omega
    exact_mod_cast h4
  have key : e = (((e + (1100 + (d : ℤ))).toNat : Nat) : ℤ) - (1100 + (d : ℤ)) := by
    rw [Int.toNat_of_nonneg hnn]
    ring
  rw [key]
  exact List.mem_map_of_mem (fun i : Nat => (i : ℤ) - (1100 + (d : ℤ))) hmem

theorem shortest_min (W EMAX B : Nat) (x : FiniteFloat W EMAX) (m : Nat) (e : ℤ)
    (hW : 0 < W) (hB1 : 1 ≤ B) (hB2 : B ≤ 1101)
    (hU : ((2 ^ (W + EMAX) : Nat) : ℚ) * scaleQ B ≤ 10 ^ (400 : ℤ))
    (hr : roundsToB W B (decval m e) x.idx = true) :
    sigLen W EMAX B x ≤ digitCount m := by
  by_cases hk0 : x.idx = 0
  · rw [sigLen_eq_zero W EMAX B x hB1 hB2 hk0]
    exact Nat.zero_le _
  · have hk : 0 < x.idx := Nat.pos_of_ne_zero hk0
    by_cases hm0 : m = 0
    · exfalso
      have hvpos := rounds_val_pos W B (decval m e) x.idx hW hk hr
      rw [hm0] at hvpos
      unfold decval at hvpos
      simp at hvpos
    · have hm1 : 1 ≤ m := Nat.one_le_iff_ne_zero.2 hm0
      have hmd : m < 10 ^ digitCount m := Nat.lt_base_pow_length_digits (by norm_num)
      have hmem := e_bounds W EMAX B m e (digitCount m) x.idx hW hB2 hU hk
        (idx_le_max W EMAX x) hm1 hmd hr
      have hsome : (foundPair W B x.idx (digitCount m)).isSome = true := by
        unfold foundPair
        simp only [List.find?_isSome]
        exact ⟨(m, e), hmem, hr⟩
      exact fmt_min W EMAX B x hB1 hB2 (digitCount m) hsome

theorem digitCount_fmt (W EMAX B : Nat) (x : FiniteFloat W EMAX)
    (hW : 0 < W) (hB1 : 1 ≤ B) (hB2 : B ≤ 1101)
    (hU : ((2 ^ (W + EMAX) : Nat) : ℚ) * scaleQ B ≤ 10 ^ (400 : ℤ)) :
    digitCount (fmtPair W EMAX B x).1 = sigLen W EMAX B x := by
  have hle : digitCount (fmtPair W EMAX B x).1 ≤ sigLen W EMAX B x := by
    have hmem := fmt_mem W EMAX B x hB1 hB2
    by_cases h0 : (fmtPair W EMAX B x).1 = 0
    · rw [h0]
      unfold digitCount
      simp
    · unfold digitCount
      rw [Nat.digits_len 10 _ (by norm_num) h0]
      have := (Nat.lt_pow_iff_log_lt (by norm_num : 1 < 10) h0).1 hmem
      omega
  have hge : sigLen W EMAX B x ≤ digitCount (fmtPair W EMAX B x).1 :=
    shortest_min W EMAX B x _ _ hW hB1 hB2 hU (fmt_rounds W EMAX B x hB1 hB2)
  omega

theorem pow_mul_scale (n B : Nat) (hB : 1 ≤ B) (hn : B - 1 ≤ n) :
    ((2 ^ n : Nat) : ℚ) * scaleQ B = ((2 ^ (n - (B - 1)) : Nat) : ℚ) := by
  unfold scaleQ
  push_cast
  rw [← zpow_natCast (2 : ℚ) n, ← zpow_natCast (2 : ℚ) (n - (B - 1)),
    ← zpow_add₀ (by norm_num : (2 : ℚ) ≠ 0)]
  congr 1
  rw [Nat.cast_sub hn, Nat.cast_sub hB]
  push_cast
  ring

theorem hU64 : ((2 ^ (52 + 2046) : Nat) : ℚ) * scaleQ 1075 ≤ 10 ^ (400 : ℤ) := by
  rw [show 52 + 2046 = 2098 from rfl,
    pow_mul_scale 2098 1075 (by norm_num) (by norm_num),
    show (2098 : Nat) - (1075 - 1) = 1024 from rfl,
    show (10 : ℚ) ^ (400 : ℤ) = ((10 ^ 400 : Nat) : ℚ) by norm_num]
  exact_mod_cast (by norm_num : (2 ^ 1024 : Nat) ≤ 10 ^ 400)

theorem hU32 : ((2 ^ (23 + 254) : Nat) : ℚ) * scaleQ 150 ≤ 10 ^ (400 : ℤ) := by
  rw [show 23 + 254 = 277 from rfl,
    pow_mul_scale 277 150 (by norm_num) (by norm_num),
    show (277 : Nat) - (150 - 1) = 128 from rfl,
    show (10 : ℚ) ^ (400 : ℤ) = ((10 ^ 400 : Nat) : ℚ) by norm_num]
  exact_mod_cast (by norm_num : (2 ^ 128 : Nat) ≤ 10 ^ 400)

/-- C1: for every finite f64 (resp. f32) bit pattern, the decimal produced
by the spec-modelled shortest-round-trip formatter carries the input's sign
(so the sign of zero is preserved), its decimal value rounds (to nearest,
ties to even) back to the input's exact magnitude, and the input is the
unique finite magnitude it rounds to — i.e. parsing the rendered string
back at the same width reproduces the bit pattern exactly. -/
theorem claim_C1 :
    (∀ x : FiniteFloat 52 2046,
      (formatFiniteDec 52 2046 1075 x).1 = x.sign ∧
      roundsToB 52 1075
        (decval (formatFiniteDec 52 2046 1075 x).2.1 (formatFiniteDec 52 2046 1075 x).2.2)
        x.idx = true ∧
      ∀ k : Nat,
        roundsToB 52 1075
          (decval (formatFiniteDec 52 2046 1075 x).2.1 (formatFiniteDec 52 2046 1075 x).2.2)
          k = true → k = x.idx) ∧
    (∀ x : FiniteFloat 23 254,
      (formatFiniteDec 23 254 150 x).1 = x.sign ∧
      roundsToB 23 150
        (decval (formatFiniteDec 23 254 150 x).2.1 (formatFiniteDec 23 254 150 x).2.2)
        x.idx = true ∧
      ∀ k : Nat,
        roundsToB 23 150
          (decval (formatFiniteDec 23 254 150 x).2.1 (formatFiniteDec 23 254 150 x).2.2)
          k = true → k = x.idx) := by
  constructor
  · intro x
    have hr := fmt_rounds 52 2046 1075 x (by norm_num) (by norm_num)
    exact ⟨rfl, hr, fun k hk => rounds_unique 52 1075 _ k x.idx hk hr⟩
  · intro x
    have hr := fmt_rounds 23 254 150 x (by norm_num) (by norm_num)
    exact ⟨rfl, hr, fun k hk => rounds_unique 23 150 _ k x.idx hk hr⟩

/-- C1 witness: for the f64 value 1.0, the produced decimal rounds back to
1.0's magnitude and to no other. -/
theorem claim_C1_witness :
    (formatFiniteDec 52 2046 1075 one64).1 = one64.sign ∧
    roundsToB 52 1075
      (decval (formatFiniteDec 52 2046 1075 one64).2.1
        (formatFiniteDec 52 2046 1075 one64).2.2) one64.idx = true ∧
    one64.idx = one64.idx := by
  have h := claim_C1.1 one64
  exact ⟨h.1, h.2.1, h.2.2 one64.idx h.2.1⟩

/-- C2: for every finite f64 (resp. f32) bit pattern, no decimal with fewer
significant digits than the produced string also rounds back to the input
(stated contrapositively: any decimal value `m * 10^e` that parses back to
the input's magnitude has at least `sigLen` significant digits), and the
significand the formatter produces has exactly `sigLen` digits. -/
theorem claim_C2 :
    (∀ (x : FiniteFloat 52 2046) (m : Nat) (e : ℤ),
      roundsToB 52 1075 (decval m e) x.idx = true →
      sigLen 52 2046 1075 x ≤ digitCount m) ∧
    (∀ x : FiniteFloat 52 2046,
      digitCount (formatFiniteDec 52 2046 1075 x).2.1 = sigLen 52 2046 1075 x) ∧
    (∀ (x : FiniteFloat 23 254) (m : Nat) (e : ℤ),
      roundsToB 23 150 (decval m e) x.idx = true →
      sigLen 23 254 150 x ≤ digitCount m) ∧
    (∀ x : FiniteFloat 23 254,
      digitCount (formatFiniteDec 23 254 150 x).2.1 = sigLen 23 254 150 x) := by
  refine ⟨?_, ?_, ?_, ?_⟩
  · intro x m e hr
    exact shortest_min 52 2046 1075 x m e (by norm_num) (by norm_num) (by norm_num) hU64 hr
  · intro x
    exact digitCount_fmt 52 2046 1075 x (by norm_num) (by norm_num) (by norm_num) hU64
  · intro x m e hr
    exact shortest_min 23 254 150 x m e (by norm_num) (by norm_num) (by norm_num) hU32 hr
  · intro x
    exact digitCount_fmt 23 254 150 x (by norm_num) (by norm_num) (by norm_num) hU32

/-- C2 witness: the exact decimal expansion of the f64 value 1.0 rounds
back to it, so the produced string has no more significant digits than that
expansion. -/
theorem claim_C2_witness :
    roundsToB 52 1075
      (decval (nvIdx 52 one64.idx * 5 ^ (1075 - 1)) (1 - ((1075 : Nat) : ℤ)))
      one64.idx = true ∧
    sigLen 52 2046 1075 one64 ≤ digitCount (nvIdx 52 one64.idx * 5 ^ (1075 - 1)) := by
  have hr : roundsToB 52 1075
      (decval (nvIdx 52 one64.idx * 5 ^ (1075 - 1)) (1 - ((1075 : Nat) : ℤ)))
      one64.idx = true := by
    rw [decval_witness 52 1075 one64.idx (by norm_num)]
    exact rounds_self 52 1075 one64.idx
  exact ⟨hr, claim_C2.1 one64 _ _ hr⟩

end Ryuu
